import Mathlib

/-!
Shallow embedding of the column-to-value mapping core of the `ppw-table`
component (`table.component.ts`, `columns/text-column.ts`,
`options/table-options.ts`).

Records are JSON-like runtime values.  The JavaScript value `undefined`
("absent") is a first-class member of the value type because the resolver
returns it and property reads can produce it.  A computation that throws a
runtime `TypeError` is modelled with `Except Unit`: `.error ()` is a thrown
exception, `.ok v` a normal completion with value `v`.
-/

/-- JSON-like runtime values manipulated by the table component. -/
inductive Value where
  | vNull
  | vUndefined
  | vBool (b : Bool)
  | vNum (n : Int)
  | vStr (s : String)
  | vObj (fields : List (String × Value))
  | vArr (elems : List Value)

/-! ## Path resolver (`getPossibleNestedValue`, table.component.ts 283-296)

The source first rewrites the selector with
`selector.replace(/\x5c[(\x5cw+)]/g, '.$1')` (every bracketed word-character
run becomes a dotted segment), then strips one leading dot, splits on `.` and
walks the record.
-/

/-- JavaScript regex word character (`[A-Za-z0-9_]`). -/
def isWordChar (c : Char) : Bool := c.isAlphanum || c = '_'

/--
One left-to-right pass of the global regex replacement
`selector.replace(/\x5c[(\x5cw+)]/g, '.$1')` from the source, phrased as a
character scanner.  The `none` state is ordinary scanning; the state
`some acc` means an opening `[` has been read and `acc` holds (reversed) the
word characters read since.  On a closing `]` after at least one word
character the whole `[run]` is emitted as `.run`; on any failure the scanned
characters are emitted unchanged and scanning resumes exactly where the
JavaScript regex engine would resume (right after the unmatched `[`).
-/
def brLoop : List Char → Option (List Char) → List Char
  | [], none => []
  | [], some acc => '[' :: acc.reverse
  | c :: rest, none =>
      if c = '[' then brLoop rest (some [])
      else c :: brLoop rest none
  | c :: rest, some acc =>
      if isWordChar c then brLoop rest (some (c :: acc))
      else if c = ']' then
        match acc with
        | [] => '[' :: ']' :: brLoop rest none
        | _ :: _ => '.' :: acc.reverse ++ brLoop rest none
      else if c = '[' then '[' :: acc.reverse ++ brLoop rest (some [])
      else '[' :: acc.reverse ++ c :: brLoop rest none

/-- `selector.replace(/\x5c[(\x5cw+)]/g, '.$1')` — convert indexes to properties. -/
def bracketReplace (l : List Char) : List Char := brLoop l none

/-- Specification device for reasoning about `brLoop`: the outcome of the
regex engine's match attempt directly after an opening `[` — `some (run,
rest2)` when the text continues with a nonempty word-character run and a
closing `]` (leaving `rest2`), `none` otherwise. -/
def matchBracket (rest : List Char) : Option (List Char × List Char) :=
  if rest.takeWhile isWordChar = [] then none
  else if (rest.dropWhile isWordChar).head? = some ']' then
    some (rest.takeWhile isWordChar, (rest.dropWhile isWordChar).tail)
  else none

/-- `selector.replace(/^\x5c./, '')` — strip one leading dot. -/
def stripLeadingDot : List Char → List Char
  | '.' :: rest => rest
  | l => l

/-- JavaScript `selector.split('.')`: always at least one (possibly empty)
segment; empty segments between consecutive dots are kept. -/
def splitOnDot : List Char → List (List Char)
  | [] => [[]]
  | '.' :: rest => [] :: splitOnDot rest
  | c :: rest =>
      match splitOnDot rest with
      | [] => [[c]]
      | seg :: segs => (c :: seg) :: segs

/-- The selector normalisation pipeline of `getPossibleNestedValue`:
replace bracketed indexes, strip a leading dot, split on `.`. -/
def parseSelector (selector : String) : List String :=
  (splitOnDot (stripLeadingDot (bracketReplace selector.data))).map
    (fun cs => String.mk cs)

/-- Own-property membership test on an object's field list (`k in record`
for an object, idealised to own enumerable properties of JSON-like data). -/
def hasField : List (String × Value) → String → Bool
  | [], _ => false
  | (k, _) :: rest, key => k = key || hasField rest key

/-- Property read on an object's field list (`record[k]`). -/
def getField : List (String × Value) → String → Value
  | [], _ => Value.vUndefined
  | (k, v) :: rest, key => if k = key then v else getField rest key

/-- Decimal value of a digit list (most significant first). -/
def decimalValue : List Char → Nat → Nat
  | [], acc => acc
  | c :: cs, acc => decimalValue cs (acc * 10 + (c.toNat - '0'.toNat))

/-- The canonical array-index reading of a property key: `some i` when the
key is the decimal numeral of `i` without leading zeros, else `none`.
JavaScript arrays only own such canonical index keys (`"01" in [1,2]` is
false). -/
def toCanonicalIndex (k : String) : Option Nat :=
  match k.data with
  | [] => none
  | c :: cs =>
      if (c :: cs).all Char.isDigit && (c != '0' || cs.isEmpty) then
        some (decimalValue (c :: cs) 0)
      else none

/-- `k in record` for an array value. -/
def arrHasIndex (elems : List Value) (k : String) : Bool :=
  match toCanonicalIndex k with
  | some i => i < elems.length
  | none => false

/-- `record[k]` for an array value. -/
def arrGet (elems : List Value) (k : String) : Value :=
  match toCanonicalIndex k with
  | some i => elems.getD i Value.vUndefined
  | none => Value.vUndefined

/--
The segment walk of `getPossibleNestedValue`:

for each segment `k`: if `record != null && k in record` descend into
`record[k]`, else return `undefined`.  JavaScript loose `!= null` is true
exactly for values other than `null` and `undefined`; applying the `in`
operator to a non-null primitive (boolean, number, string) throws a
`TypeError`, modelled by `.error ()`.
-/
def walk : Value → List String → Except Unit Value
  | record, [] => Except.ok record
  | record, k :: rest =>
      match record with
      | Value.vNull => Except.ok Value.vUndefined
      | Value.vUndefined => Except.ok Value.vUndefined
      | Value.vObj fs =>
          if hasField fs k then walk (getField fs k) rest
          else Except.ok Value.vUndefined
      | Value.vArr es =>
          if arrHasIndex es k then walk (arrGet es k) rest
          else Except.ok Value.vUndefined
      | Value.vBool _ => Except.error ()
      | Value.vNum _ => Except.error ()
      | Value.vStr _ => Except.error ()

/-- `getPossibleNestedValue(record, selector)` (table.component.ts 283-296). -/
def getPossibleNestedValue (record : Value) (selector : String) : Except Unit Value :=
  walk record (parseSelector selector)

/-! ## Column definitions (`columns/*.ts`) -/

/-- `ColumnType` of the column definition system. -/
inductive ColumnType where
  | Text
  | Number
  | Date
  | Template
deriving DecidableEq

/-- The `value` accessor of a column: `undefined`/`null`, a property path
string, or an extractor function (which may itself throw). -/
inductive ColumnValue where
  | undef
  | str (s : String)
  | fn (f : Value → Except Unit Value)

/-- A column definition: type, unique name, header label, optional value
accessor and optional formatting function.  `DateColumn` is expected to
always carry a formatting function; `NumberColumn` may. -/
structure Column where
  type : ColumnType
  name : String
  label : String
  value : ColumnValue
  formatFn : Option (Value → Value)

/-- `getColumnValue(column, record)` (table.component.ts 303-314):
if the accessor is `undefined` or `null`, resolve the column's `name` as a
path; if it is a string, resolve that string as a path; if it is a
function, call it on the record (errors are not caught here). -/
def getColumnValue (column : Column) (record : Value) : Except Unit Value :=
  match column.value with
  | ColumnValue.undef => getPossibleNestedValue record column.name
  | ColumnValue.str s => getPossibleNestedValue record s
  | ColumnValue.fn f => f record

/-- JavaScript truthiness of a value (`v ? a : b`). -/
def truthy : Value → Bool
  | Value.vNull => false
  | Value.vUndefined => false
  | Value.vBool b => b
  | Value.vNum n => n != 0
  | Value.vStr s => s != ""
  | Value.vObj _ => true
  | Value.vArr _ => true

/-- Strict presence check `v !== null && v !== undefined`. -/
def isPresent : Value → Bool
  | Value.vNull => false
  | Value.vUndefined => false
  | _ => true

/--
`mapValue(column, record)` (table.component.ts 227-253):

* `Date`: `mappedDateValue ? dateColumn.formatFn(mappedDateValue) : undefined`
  — a truthiness test; calling an absent `formatFn` would itself throw.
* `Number`: `formatFn && v !== null && v !== undefined ? formatFn(v)
  : (v !== null && v !== undefined ? v : undefined)` — strict checks.
* `Template`, `Text` and the `default` arm pass the raw value through.
-/
def mapValue (column : Column) (record : Value) : Except Unit Value :=
  match column.type with
  | ColumnType.Date =>
      match getColumnValue column record with
      | Except.error e => Except.error e
      | Except.ok v =>
          if truthy v then
            match column.formatFn with
            | some f => Except.ok (f v)
            | none => Except.error ()
          else Except.ok Value.vUndefined
  | ColumnType.Number =>
      match getColumnValue column record with
      | Except.error e => Except.error e
      | Except.ok v =>
          match column.formatFn with
          | some f => if isPresent v then Except.ok (f v) else Except.ok Value.vUndefined
          | none => if isPresent v then Except.ok v else Except.ok Value.vUndefined
  | ColumnType.Template => getColumnValue column record
  | ColumnType.Text => getColumnValue column record

/-! ## Record mapper (`_mapToLocalKeyValuePairs`, table.component.ts 200-225)

The row-identity key produced by the caller-supplied `trackBy` function has
TypeScript type `unknown`; it is modelled by a type parameter `κ`.  The
`FormArray` input branch merely swaps in `items.controls` and the `items ??
[]` guard defaults a nullish input to the empty list; the mapper proper is
modelled on the plain record-array path.
-/

/-- The per-row projection `TableRecord` (table.component.ts 269-276). -/
structure TableRecord (κ : Type) where
  initialRecord : Value
  mappedValues : List (String × Value)
  trackByValue : κ

/-- The loop `for (const column of columns) mappedValues[column.name] =
this.mapValue(column, record)`: successive assignments into a fresh object,
kept in assignment order.  A thrown `mapValue` aborts the whole mapping. -/
def buildMappedValues : List Column → Value → Except Unit (List (String × Value))
  | [], _ => Except.ok []
  | c :: cs, r =>
      match mapValue c r, buildMappedValues cs r with
      | Except.ok v, Except.ok tl => Except.ok ((c.name, v) :: tl)
      | Except.error e, _ => Except.error e
      | _, Except.error e => Except.error e

/-- Reading a JavaScript object built by successive assignments: the last
assignment to a key wins. -/
def lookupMapped : List (String × Value) → String → Option Value
  | [], _ => none
  | (k, v) :: rest, key =>
      match lookupMapped rest key with
      | some w => some w
      | none => if k = key then some v else none

/-- `records.map((record, index) => ...)` with the running index made
explicit. -/
def mapRecords (columns : List Column) {κ : Type} (trackBy : Nat → Value → κ) :
    List Value → Nat → Except Unit (List (TableRecord κ))
  | [], _ => Except.ok []
  | r :: rs, index =>
      match buildMappedValues columns r, mapRecords columns trackBy rs (index + 1) with
      | Except.ok mv, Except.ok tl =>
          Except.ok ({ initialRecord := r, mappedValues := mv,
                       trackByValue := trackBy index r } :: tl)
      | Except.error e, _ => Except.error e
      | _, Except.error e => Except.error e

/-- `_mapToLocalKeyValuePairs(items, columns)` (table.component.ts 200-225). -/
def mapToLocalKeyValuePairs (items : List Value) (columns : List Column)
    {κ : Type} (trackBy : Nat → Value → κ) : Except Unit (List (TableRecord κ)) :=
  mapRecords columns trackBy items 0

/-! ## Selection (table.component.ts 145-182)

The `SelectionModel` is created with the comparator
`(o1, o2) => o1.trackByValue === o2.trackByValue`; strict equality `===` on
the row-identity keys is modelled as decidable equality on `κ`.  The
selection itself is the list of currently selected rows; `isSelected` finds
a member under the comparator, as the `SelectionModel` configured with a
`compareWith` function does.
-/

/-- The comparator passed to the `SelectionModel` (table.component.ts 150-152). -/
def selectionCompareWith {κ : Type} [DecidableEq κ] (o1 o2 : TableRecord κ) : Bool :=
  decide (o1.trackByValue = o2.trackByValue)

/-- `this.selection.isSelected(record)` for a selection holding `selected`. -/
def isSelected {κ : Type} [DecidableEq κ] (selected : List (TableRecord κ))
    (record : TableRecord κ) : Bool :=
  selected.any (fun s => selectionCompareWith s record)

/-- `isAllSelected()` (table.component.ts 156-166). -/
def isAllSelected {κ : Type} [DecidableEq κ] (data selected : List (TableRecord κ)) : Bool :=
  if data.length = 0 then false
  else (data.filter (fun r => isSelected selected r)).length = data.length

/-- `SelectionModel.select(row)`: adds the row unless an equal row (under
the comparator) is already selected. -/
def selectRow {κ : Type} [DecidableEq κ] (selected : List (TableRecord κ))
    (row : TableRecord κ) : List (TableRecord κ) :=
  if isSelected selected row then selected else selected ++ [row]

/-- `masterToggle()` (table.component.ts 178-182): clear when everything is
selected, otherwise select every row of the data source. -/
def masterToggle {κ : Type} [DecidableEq κ] (data selected : List (TableRecord κ)) :
    List (TableRecord κ) :=
  if isAllSelected data selected then []
  else data.foldl (fun sel row => selectRow sel row) selected

/-! ## Row click (`executeRowClick`, table.component.ts 255-258 and
`options/table-options.ts`) -/

/-- The slice of `PpwTableOptions` relevant to row clicks: the optional
`rows.onClick` handler (a `void` function; only its presence and argument
matter) and the optional `columns.ignoreClick` name list. -/
structure PpwTableOptions where
  onClick : Option (Value → Unit)
  ignoreClick : Option (List String)

/-- JavaScript `Array.prototype.indexOf`: first index of the element, `-1`
when absent. -/
def jsIndexOf : List String → String → Int
  | [], _ => -1
  | s :: rest, x =>
      if s = x then 0
      else
        match jsIndexOf rest x with
        | -1 => -1
        | i => i + 1

/--
`executeRowClick(record, columnName)` (table.component.ts 255-258):

`onClick && (options?.columns?.ignoreClick?.indexOf(columnName) ?? -1 < 0)
? onClick(record) : null`.

By JavaScript precedence the right operand of `??` is `(-1 < 0)`, i.e.
`true`; when the optional chain produces a number that number itself is the
condition, truthy unless it is `0`.  The result records the argument the
handler is invoked with (`some record`), or `none` when it is not invoked.
-/
def executeRowClick (options : Option PpwTableOptions) (record : Value)
    (columnName : String) : Option Value :=
  match options.bind PpwTableOptions.onClick with
  | none => none
  | some _ =>
      match options.bind PpwTableOptions.ignoreClick with
      | none => some record
      | some ig => if jsIndexOf ig columnName = 0 then none else some record


/-! ## Claims -/

/-- C1 counterexample: `getPossibleNestedValue` is not a non-throwing
contract.  On the record with field `a` holding the number `5` and the
selector `a.b`, the second loop iteration evaluates the JavaScript
expression `"b" in 5`, which throws a `TypeError` instead of yielding
`undefined`. -/
theorem c1_counterexample :
    getPossibleNestedValue (Value.vObj [("a", Value.vNum 5)]) "a.b" = Except.error () := rfl

/--
C1 (amended): `getPossibleNestedValue` walks the parsed selector segments;
at every step a `null` or `undefined` intermediate, a key missing from an
object, or an index missing from an array makes it return `undefined`
without throwing — but a non-null primitive intermediate (boolean, number
or string) reached with a segment still to consume makes the `in` operator
throw a `TypeError` rather than return `undefined`.
-/
theorem c1_resolver_amended :
    (∀ (record : Value) (selector : String),
        getPossibleNestedValue record selector = walk record (parseSelector selector))
  ∧ (∀ (k : String) (rest : List String),
        walk Value.vNull (k :: rest) = Except.ok Value.vUndefined
      ∧ walk Value.vUndefined (k :: rest) = Except.ok Value.vUndefined)
  ∧ (∀ (k : String) (rest : List String) (fs : List (String × Value)),
        hasField fs k = false →
        walk (Value.vObj fs) (k :: rest) = Except.ok Value.vUndefined)
  ∧ (∀ (k : String) (rest : List String) (es : List Value),
        arrHasIndex es k = false →
        walk (Value.vArr es) (k :: rest) = Except.ok Value.vUndefined)
  ∧ (∀ (k : String) (rest : List String) (b : Bool) (n : Int) (s : String),
        walk (Value.vBool b) (k :: rest) = Except.error ()
      ∧ walk (Value.vNum n) (k :: rest) = Except.error ()
      ∧ walk (Value.vStr s) (k :: rest) = Except.error ()) := by
  refine ⟨fun _ _ => rfl, fun _ _ => ⟨rfl, rfl⟩, ?_, ?_,
    fun _ _ _ _ _ => ⟨rfl, rfl, rfl⟩⟩
  · intro k rest fs h
    simp [walk, h]
  · intro k rest es h
    simp [walk, h]

/-- Witness for `c1_resolver_amended` at a concrete record and key. -/
theorem c1_witness :
    walk (Value.vObj [("a", Value.vNum 1)]) ["b"] = Except.ok Value.vUndefined :=
  c1_resolver_amended.2.2.1 "b" [] [("a", Value.vNum 1)] rfl

/-- C3 counterexample: for a date column, the raw value `0` is present
(neither `null` nor `undefined`) yet `mapValue` yields `undefined` instead
of the format function's output, because the source tests JavaScript
truthiness (`mappedDateValue ? ... : undefined`), not presence. -/
theorem c3_counterexample :
    getColumnValue
        ⟨ColumnType.Date, "d", "D", ColumnValue.undef, some (fun _ => Value.vStr "X")⟩
        (Value.vObj [("d", Value.vNum 0)]) = Except.ok (Value.vNum 0)
  ∧ isPresent (Value.vNum 0) = true
  ∧ mapValue
        ⟨ColumnType.Date, "d", "D", ColumnValue.undef, some (fun _ => Value.vStr "X")⟩
        (Value.vObj [("d", Value.vNum 0)]) = Except.ok Value.vUndefined
  ∧ (Except.ok ((fun _ => Value.vStr "X") (Value.vNum 0)) : Except Unit Value)
        ≠ Except.ok Value.vUndefined := by
  refine ⟨rfl, rfl, rfl, ?_⟩
  simp

/-- C3 (amended): for a date column with format function `f`, `mapValue`
applies `f` exactly when the extracted raw value is truthy, and yields
`undefined` otherwise — so `null` (and also present-but-falsy values such
as `0`) map to `undefined`, while a valid date (an object, always truthy)
maps to `f` applied to it. -/
theorem c3_date_truthy_amended (col : Column) (record : Value) (f : Value → Value)
    (v : Value) (htype : col.type = ColumnType.Date) (hf : col.formatFn = some f)
    (hv : getColumnValue col record = Except.ok v) :
    mapValue col record = Except.ok (if truthy v then f v else Value.vUndefined) := by
  simp only [mapValue, htype, hv, hf]
  by_cases ht : truthy v <;> simp [ht]

/-- Witness for `c3_date_truthy_amended`: a truthy (object) date value is
formatted. -/
theorem c3_witness :
    mapValue
        ⟨ColumnType.Date, "d", "D", ColumnValue.undef, some (fun _ => Value.vStr "X")⟩
        (Value.vObj [("d", Value.vObj [("y", Value.vNum 2024)])])
      = Except.ok (Value.vStr "X") := by
  simpa using c3_date_truthy_amended
    ⟨ColumnType.Date, "d", "D", ColumnValue.undef, some (fun _ => Value.vStr "X")⟩
    (Value.vObj [("d", Value.vObj [("y", Value.vNum 2024)])])
    (fun _ => Value.vStr "X") (Value.vObj [("y", Value.vNum 2024)]) rfl rfl rfl

/-- C4: for a number column with a format function, an extracted raw value
of `0` is treated as present (the source uses the strict checks
`v !== null && v !== undefined`), so `mapValue` returns the format
function's output for `0`. -/
theorem c4_number_zero_present (col : Column) (record : Value) (f : Value → Value)
    (htype : col.type = ColumnType.Number) (hf : col.formatFn = some f)
    (hv : getColumnValue col record = Except.ok (Value.vNum 0)) :
    mapValue col record = Except.ok (f (Value.vNum 0)) := by
  simp only [mapValue, htype, hv, hf]
  rfl

/-- Witness for `c4_number_zero_present` at a concrete column and record. -/
theorem c4_witness :
    mapValue
        ⟨ColumnType.Number, "n", "N", ColumnValue.undef, some (fun _ => Value.vStr "F")⟩
        (Value.vObj [("n", Value.vNum 0)]) = Except.ok (Value.vStr "F") :=
  c4_number_zero_present
    ⟨ColumnType.Number, "n", "N", ColumnValue.undef, some (fun _ => Value.vStr "F")⟩
    (Value.vObj [("n", Value.vNum 0)]) (fun _ => Value.vStr "F") rfl rfl rfl

/-- C5: `getColumnValue` takes exactly one of three paths, selected by the
column's `value` accessor: no accessor resolves the column's `name` as a
path, a string accessor resolves that string as a path, and a function
accessor is invoked on the record with its outcome — including a thrown
error — returned directly. -/
theorem c5_column_value_paths (col : Column) (record : Value) :
    (col.value = ColumnValue.undef →
        getColumnValue col record = getPossibleNestedValue record col.name)
  ∧ (∀ s, col.value = ColumnValue.str s →
        getColumnValue col record = getPossibleNestedValue record s)
  ∧ (∀ f, col.value = ColumnValue.fn f →
        getColumnValue col record = f record) := by
  refine ⟨fun h => ?_, fun s h => ?_, fun f h => ?_⟩ <;> simp [getColumnValue, h]

/-- Witness for `c5_column_value_paths`: a throwing extractor function's
error propagates out of `getColumnValue` uncaught. -/
theorem c5_witness :
    getColumnValue
        ⟨ColumnType.Text, "t", "T", ColumnValue.fn (fun _ => Except.error ()), none⟩
        (Value.vObj []) = Except.error () :=
  (c5_column_value_paths
    ⟨ColumnType.Text, "t", "T", ColumnValue.fn (fun _ => Except.error ()), none⟩
    (Value.vObj [])).2.2 (fun _ => Except.error ()) rfl

/-- C7 counterexample: on records `a.b = 1` and `a.b = null` with the single
text column named `x` whose accessor is the path `a.b`, the second row's
mapped value for `x` is the stored `null` passed through — not `undefined`
("absent") as the claim states. -/
theorem c7_counterexample :
    (mapToLocalKeyValuePairs
        [Value.vObj [("a", Value.vObj [("b", Value.vNum 1)])],
         Value.vObj [("a", Value.vObj [("b", Value.vNull)])]]
        [⟨ColumnType.Text, "x", "X", ColumnValue.str "a.b", none⟩]
        (fun i _ => (i : Int))).map
          (fun rows => rows.map (fun tr => lookupMapped tr.mappedValues "x"))
      = Except.ok [some (Value.vNum 1), some Value.vNull]
  ∧ some Value.vNull ≠ some Value.vUndefined := by
  refine ⟨rfl, ?_⟩
  simp

/-- C7 (amended): mapping `[a.b = 1, a.b = null]` with the single text
column `x` over path `a.b` yields mapped values `x = 1` and `x = null`
(the stored `null` is passed through by a text column; it is not converted
to `undefined`). -/
theorem c7_end_to_end_amended :
    mapToLocalKeyValuePairs
        [Value.vObj [("a", Value.vObj [("b", Value.vNum 1)])],
         Value.vObj [("a", Value.vObj [("b", Value.vNull)])]]
        [⟨ColumnType.Text, "x", "X", ColumnValue.str "a.b", none⟩]
        (fun i _ => (i : Int))
      = Except.ok
          [⟨Value.vObj [("a", Value.vObj [("b", Value.vNum 1)])],
            [("x", Value.vNum 1)], 0⟩,
           ⟨Value.vObj [("a", Value.vObj [("b", Value.vNull)])],
            [("x", Value.vNull)], 1⟩] := rfl

/-- C8: the selection comparator equates two view records exactly when
their row-identity keys are equal, regardless of their `initialRecord`
(and `mappedValues`) components; membership tests of the selection are
therefore insensitive to everything but the key. -/
theorem c8_selection_identity {κ : Type} [DecidableEq κ] :
    (∀ o1 o2 : TableRecord κ,
        selectionCompareWith o1 o2 = true ↔ o1.trackByValue = o2.trackByValue)
  ∧ (∀ (r1 r2 : Value) (m1 m2 : List (String × Value)) (t : κ),
        selectionCompareWith ⟨r1, m1, t⟩ ⟨r2, m2, t⟩ = true)
  ∧ (∀ (selected : List (TableRecord κ)) (r1 r2 : Value)
        (m1 m2 : List (String × Value)) (t : κ),
        isSelected selected ⟨r1, m1, t⟩ = isSelected selected ⟨r2, m2, t⟩) := by
  refine ⟨fun o1 o2 => ?_, fun r1 r2 m1 m2 t => ?_, fun sel r1 r2 m1 m2 t => rfl⟩
  · simp [selectionCompareWith]
  · simp [selectionCompareWith]

/-- Witness for `c8_selection_identity`: two rows with different initial
records but the same key compare equal. -/
theorem c8_witness :
    selectionCompareWith (κ := Int)
      ⟨Value.vObj [("a", Value.vNum 1)], [], 7⟩
      ⟨Value.vObj [("a", Value.vNum 2)], [], 7⟩ = true :=
  (c8_selection_identity (κ := Int)).2.1
    (Value.vObj [("a", Value.vNum 1)]) (Value.vObj [("a", Value.vNum 2)]) [] [] 7

/-- C9 evaluation: with `ignoreClick = ["a", "b"]` and a configured click
handler, `executeRowClick` still invokes the handler for column `"b"`
(a member of the exclusion list, at position 1) while suppressing it for
`"a"` (position 0) and invoking it for the unlisted `"c"`.  The minus sign
in `... ?? -1 < 0` binds as `... ?? (-1 < 0)`, so only an `indexOf` result
of `0` — a falsy number — suppresses the click. -/
theorem c9_ignore_click_eval :
    executeRowClick (some ⟨some (fun _ => ()), some ["a", "b"]⟩) (Value.vObj []) "b"
        = some (Value.vObj [])
  ∧ "b" ∈ ["a", "b"]
  ∧ executeRowClick (some ⟨some (fun _ => ()), some ["a", "b"]⟩) (Value.vObj []) "a"
        = none
  ∧ executeRowClick (some ⟨some (fun _ => ()), some ["a", "b"]⟩) (Value.vObj []) "c"
        = some (Value.vObj []) := by
  refine ⟨rfl, ?_, rfl, rfl⟩
  simp

/-- C10: an empty data source is never "all selected", whatever the current
selection is, so the master toggle on an empty table takes the select
branch (a no-op) rather than clearing the selection. -/
theorem c10_empty_never_all_selected {κ : Type} [DecidableEq κ]
    (selected : List (TableRecord κ)) :
    isAllSelected [] selected = false ∧ masterToggle [] selected = selected := by
  refine ⟨rfl, ?_⟩
  simp [masterToggle, isAllSelected]

/-- Witness for `c10_empty_never_all_selected` at a concrete selection. -/
theorem c10_witness :
    isAllSelected (κ := Int) [] [⟨Value.vObj [], [], 3⟩] = false
  ∧ masterToggle (κ := Int) [] [⟨Value.vObj [], [], 3⟩] = [⟨Value.vObj [], [], 3⟩] :=
  c10_empty_never_all_selected [⟨Value.vObj [], [], 3⟩]

/-! ### Record-mapper lemmas (towards C6) -/

/-- A key that was never assigned reads back as `none`. -/
theorem lookupMapped_eq_none (mv : List (String × Value)) (k : String)
    (h : k ∉ mv.map Prod.fst) : lookupMapped mv k = none := by
  induction mv with
  | nil => rfl
  | cons p rest ih =>
    obtain ⟨pk, pv⟩ := p
    simp only [List.map_cons, List.mem_cons] at h
    push_neg at h
    have h1 : pk ≠ k := fun hc => h.1 hc.symm
    simp [lookupMapped, ih h.2, h1]

/-- The keys of the assembled `mappedValues` are the column names, in
column order. -/
theorem buildMappedValues_names (cols : List Column) (r : Value)
    (mv : List (String × Value)) (h : buildMappedValues cols r = Except.ok mv) :
    mv.map Prod.fst = cols.map Column.name := by
  induction cols generalizing mv with
  | nil =>
    simp only [buildMappedValues, Except.ok.injEq] at h
    simp [← h]
  | cons c cs ih =>
    cases h1 : mapValue c r with
    | error e => simp [buildMappedValues, h1] at h
    | ok v =>
      cases h2 : buildMappedValues cs r with
      | error e => simp [buildMappedValues, h1, h2] at h
      | ok tl =>
        simp only [buildMappedValues, h1, h2, Except.ok.injEq] at h
        simp [← h, ih tl h2]

/-- With pairwise-distinct column names, every column's assembled mapped
value reads back as the (successful) `mapValue` outcome for that column. -/
theorem buildMappedValues_lookup (cols : List Column) (r : Value)
    (mv : List (String × Value)) (hnodup : (cols.map Column.name).Nodup)
    (h : buildMappedValues cols r = Except.ok mv) :
    ∀ col ∈ cols, ∃ v, mapValue col r = Except.ok v ∧
      lookupMapped mv col.name = some v := by
  induction cols generalizing mv with
  | nil => intro col hcol; cases hcol
  | cons c cs ih =>
    cases h1 : mapValue c r with
    | error e => simp [buildMappedValues, h1] at h
    | ok v =>
      cases h2 : buildMappedValues cs r with
      | error e => simp [buildMappedValues, h1, h2] at h
      | ok tl =>
        simp only [buildMappedValues, h1, h2, Except.ok.injEq] at h
        subst h
        simp only [List.map_cons, List.nodup_cons] at hnodup
        intro col hcol
        rcases List.mem_cons.1 hcol with rfl | hmem
        · refine ⟨v, h1, ?_⟩
          have hnone : lookupMapped tl col.name = none := by
            apply lookupMapped_eq_none
            rw [buildMappedValues_names cs r tl h2]
            exact hnodup.1
          simp [lookupMapped, hnone]
        · obtain ⟨w, hw, hlook⟩ := ih tl hnodup.2 h2 col hmem
          exact ⟨w, hw, by simp [lookupMapped, hlook]⟩

/-- Index-wise description of `mapRecords`: the output is index-parallel to
the input, keeps each record, applies the identity function to the running
index and record, and carries the assembled mapped values. -/
theorem mapRecords_spec (cols : List Column) {κ : Type} (tb : Nat → Value → κ) :
    ∀ (rs : List Value) (start : Nat) (out : List (TableRecord κ)),
    mapRecords cols tb rs start = Except.ok out →
    out.length = rs.length ∧
    ∀ i r, rs[i]? = some r → ∃ tr, out[i]? = some tr ∧
      tr.initialRecord = r ∧ tr.trackByValue = tb (start + i) r ∧
      buildMappedValues cols r = Except.ok tr.mappedValues := by
  intro rs
  induction rs with
  | nil =>
    intro start out h
    simp only [mapRecords, Except.ok.injEq] at h
    subst h
    exact ⟨rfl, by intro i r hr; simp at hr⟩
  | cons r0 rs ih =>
    intro start out h
    cases h1 : buildMappedValues cols r0 with
    | error e => simp [mapRecords, h1] at h
    | ok mv =>
      cases h2 : mapRecords cols tb rs (start + 1) with
      | error e => simp [mapRecords, h1, h2] at h
      | ok tl =>
        simp only [mapRecords, h1, h2, Except.ok.injEq] at h
        subst h
        obtain ⟨hlen, hspec⟩ := ih (start + 1) tl h2
        refine ⟨by simp [hlen], ?_⟩
        intro i r hr
        cases i with
        | zero =>
          simp only [List.getElem?_cons_zero, Option.some.injEq] at hr
          subst hr
          refine ⟨⟨r0, mv, tb start r0⟩, ?_, rfl, rfl, h1⟩
          simp
        | succ j =>
          simp only [List.getElem?_cons_succ] at hr
          obtain ⟨tr, hout, hinit, htrack, hmv⟩ := hspec j r hr
          refine ⟨tr, by simpa using hout, hinit, ?_, hmv⟩
          have harith : start + 1 + j = start + (j + 1) := by omega
          rw [← harith]
          exact htrack

/-- C6: the record mapper is an order- and length-preserving projection:
row `i` of the output pairs the unmodified input record `i` with a mapping
that assigns to each column's name its extracted-and-formatted value, plus
the caller-supplied identity function applied to the index and record. -/
theorem c6_record_mapper (records : List Value) (columns : List Column) {κ : Type}
    (trackBy : Nat → Value → κ) (out : List (TableRecord κ))
    (hnodup : (columns.map Column.name).Nodup)
    (hok : mapToLocalKeyValuePairs records columns trackBy = Except.ok out) :
    out.length = records.length
  ∧ ∀ i r, records[i]? = some r → ∃ tr, out[i]? = some tr ∧
      tr.initialRecord = r ∧ tr.trackByValue = trackBy i r ∧
      ∀ col ∈ columns, ∃ v, mapValue col r = Except.ok v ∧
        lookupMapped tr.mappedValues col.name = some v := by
  obtain ⟨hlen, hspec⟩ := mapRecords_spec columns trackBy records 0 out hok
  refine ⟨hlen, fun i r hr => ?_⟩
  obtain ⟨tr, hout, hinit, htrack, hmv⟩ := hspec i r hr
  exact ⟨tr, hout, hinit, by simpa using htrack,
    buildMappedValues_lookup columns r tr.mappedValues hnodup hmv⟩

/-- Witness for `c6_record_mapper` at a concrete one-row, one-column table. -/
theorem c6_witness :
    ([⟨Value.vObj [("x", Value.vNum 7)], [("x", Value.vNum 7)], (0 : Int)⟩] :
        List (TableRecord Int)).length
      = [Value.vObj [("x", Value.vNum 7)]].length :=
  (c6_record_mapper [Value.vObj [("x", Value.vNum 7)]]
    [⟨ColumnType.Text, "x", "X", ColumnValue.undef, none⟩]
    (fun i _ => (i : Int))
    [⟨Value.vObj [("x", Value.vNum 7)], [("x", Value.vNum 7)], 0⟩]
    (by simp) rfl).1

/-! ### Bracket-normalisation lemmas (towards C2) -/

/-- Word characters are none of the three metacharacters of the rewrite. -/
theorem isWordChar_ne (c : Char) (h : isWordChar c = true) :
    c ≠ '[' ∧ c ≠ ']' ∧ c ≠ '.' := by
  refine ⟨?_, ?_, ?_⟩ <;> rintro rfl <;> revert h <;> decide

/-- Scanning step: an ordinary character is copied. -/
theorem brLoop_cons_ne (c : Char) (rest : List Char) (h : c ≠ '[') :
    brLoop (c :: rest) none = c :: brLoop rest none := by
  simp [brLoop, h]

/-- Scanning step: an opening bracket starts a match attempt. -/
theorem brLoop_cons_lbracket (rest : List Char) :
    brLoop ('[' :: rest) none = brLoop rest (some []) := by
  simp [brLoop]

/-- Matching step: a word character is accumulated. -/
theorem brLoop_step_some_word (c : Char) (rest acc : List Char)
    (h : isWordChar c = true) :
    brLoop (c :: rest) (some acc) = brLoop rest (some (c :: acc)) := by
  simp [brLoop, h]

/-- Matching step: a closing bracket after at least one word character
completes the match and emits the dotted form. -/
theorem brLoop_step_rbracket_cons (rest : List Char) (a : Char) (acc : List Char) :
    brLoop (']' :: rest) (some (a :: acc))
      = '.' :: (a :: acc).reverse ++ brLoop rest none := by
  have h1 : isWordChar ']' = false := by decide
  simp [brLoop, h1]

/-- Matching step: a closing bracket with an empty run fails; `[]` is
copied and scanning resumes. -/
theorem brLoop_step_rbracket_nil (rest : List Char) :
    brLoop (']' :: rest) (some []) = '[' :: ']' :: brLoop rest none := by
  have h1 : isWordChar ']' = false := by decide
  simp [brLoop, h1]

/-- Matching step: a second opening bracket fails the pending match and
starts a fresh one. -/
theorem brLoop_step_some_lbracket (rest acc : List Char) :
    brLoop ('[' :: rest) (some acc) = '[' :: acc.reverse ++ brLoop rest (some []) := by
  have h1 : isWordChar '[' = false := by decide
  have h2 : ('[' : Char) ≠ ']' := by decide
  simp [brLoop, h1, h2]

/-- Matching step: any other character fails the pending match and is
rescanned as an ordinary character. -/
theorem brLoop_step_some_other (c : Char) (rest acc : List Char)
    (h1 : isWordChar c = false) (h2 : c ≠ ']') (h3 : c ≠ '[') :
    brLoop (c :: rest) (some acc) = '[' :: acc.reverse ++ c :: brLoop rest none := by
  simp [brLoop, h1, h2, h3]

/-- A run of word characters is copied verbatim in the scanning state. -/
theorem brLoop_none_word_append (run m : List Char)
    (h : ∀ c ∈ run, isWordChar c = true) :
    brLoop (run ++ m) none = run ++ brLoop m none := by
  induction run with
  | nil => rfl
  | cons c cs ih =>
    have hc := h c (List.mem_cons_self c cs)
    rw [List.cons_append, brLoop_cons_ne c (cs ++ m) (isWordChar_ne c hc).1,
      ih (fun d hd => h d (List.mem_cons_of_mem c hd)), List.cons_append]

/-- A run of word characters is absorbed into the accumulator in the
matching state. -/
theorem brLoop_some_word_consume (run : List Char)
    (h : ∀ c ∈ run, isWordChar c = true) (m acc : List Char) :
    brLoop (run ++ m) (some acc) = brLoop m (some (run.reverse ++ acc)) := by
  induction run generalizing acc with
  | nil => simp
  | cons c cs ih =>
    have hc := h c (List.mem_cons_self c cs)
    rw [List.cons_append, brLoop_step_some_word c (cs ++ m) acc hc,
      ih (fun d hd => h d (List.mem_cons_of_mem c hd)) (c :: acc)]
    congr 1
    simp

/-- Characterisation of a successful match attempt. -/
theorem matchBracket_some (rest run rest2 : List Char)
    (h : matchBracket rest = some (run, rest2)) :
    run ≠ [] ∧ (∀ c ∈ run, isWordChar c = true) ∧ rest = run ++ ']' :: rest2 := by
  unfold matchBracket at h
  by_cases htw : rest.takeWhile isWordChar = []
  · simp [htw] at h
  · cases hdw : rest.dropWhile isWordChar with
    | nil => rw [if_neg htw, hdw] at h; simp at h
    | cons b bs =>
      rw [if_neg htw, hdw] at h
      by_cases hb : b = ']'
      · subst hb
        rw [List.head?_cons, if_pos rfl, List.tail_cons, Option.some.injEq,
          Prod.mk.injEq] at h
        obtain ⟨hrun, hrest2⟩ := h
        subst hrun; subst hrest2
        refine ⟨htw, fun c hc => List.mem_takeWhile_imp hc, ?_⟩
        conv_lhs => rw [← List.takeWhile_append_dropWhile (p := isWordChar) (l := rest)]
        rw [hdw]
      · rw [if_neg (by simp [hb])] at h
        cases h

/-- The effect of a successful match attempt: `[run]` is rewritten to
`.run` and scanning resumes after the closing bracket. -/
theorem brLoop_match (rest run rest2 : List Char)
    (h : matchBracket rest = some (run, rest2)) :
    brLoop ('[' :: rest) none = '.' :: run ++ brLoop rest2 none := by
  obtain ⟨hne, hword, hrest⟩ := matchBracket_some rest run rest2 h
  subst hrest
  rw [brLoop_cons_lbracket, brLoop_some_word_consume run hword (']' :: rest2) [],
    List.append_nil]
  cases hrr : run.reverse with
  | nil => exact absurd (by simpa using congrArg List.reverse hrr) hne
  | cons a as =>
    rw [brLoop_step_rbracket_cons rest2 a as]
    have hrun : (a :: as).reverse = run := by
      rw [← hrr, List.reverse_reverse]
    rw [hrun]

/-- Output of the matching state always starts with `[` or `.`. -/
theorem brLoop_some_head (t : List Char) : ∀ acc : List Char,
    ∃ d m, brLoop t (some acc) = d :: m ∧ (d = '[' ∨ d = '.') := by
  induction t with
  | nil => exact fun acc => ⟨'[', acc.reverse, rfl, Or.inl rfl⟩
  | cons c ts ih =>
    intro acc
    by_cases hw : isWordChar c = true
    · rw [brLoop_step_some_word c ts acc hw]
      exact ih (c :: acc)
    · by_cases hr : c = ']'
      · subst hr
        cases acc with
        | nil => exact ⟨'[', ']' :: brLoop ts none, brLoop_step_rbracket_nil ts, Or.inl rfl⟩
        | cons a as =>
          exact ⟨'.', (a :: as).reverse ++ brLoop ts none,
            brLoop_step_rbracket_cons ts a as, Or.inr rfl⟩
      · by_cases hl : c = '['
        · subst hl
          exact ⟨'[', acc.reverse ++ brLoop ts (some []),
            brLoop_step_some_lbracket ts acc, Or.inl rfl⟩
        · exact ⟨'[', acc.reverse ++ c :: brLoop ts none,
            brLoop_step_some_other c ts acc (by simpa using hw) hr hl, Or.inl rfl⟩

/-- The head of a `dropWhile` result fails the predicate. -/
theorem dropWhile_head_not_word (l : List Char) (c0 : Char) (t : List Char)
    (h : l.dropWhile isWordChar = c0 :: t) : isWordChar c0 = false := by
  induction l with
  | nil => cases h
  | cons a as ih =>
    by_cases hw : isWordChar a = true
    · rw [List.dropWhile_cons_of_pos hw] at h
      exact ih h
    · rw [List.dropWhile_cons_of_neg hw] at h
      cases h
      simpa using hw

/-- A scanner output whose head is not a word character can never begin a
match. -/
theorem matchBracket_head_not_word (d : Char) (m : List Char)
    (hd : isWordChar d = false) : matchBracket (d :: m) = none := by
  unfold matchBracket
  rw [if_pos]
  rw [List.takeWhile_cons_of_neg (by simp [hd])]

/-- Resolution of a failed match attempt whose pending accumulator holds
the word run `run`: the opening bracket and the run are emitted and the
remaining text is rescanned in the ordinary state. -/
theorem brLoop_fail_state (run dw : List Char)
    (hcase : dw = [] ∨ ∃ c0 t, dw = c0 :: t ∧ isWordChar c0 = false ∧
      (c0 = ']' → run = [])) :
    brLoop dw (some run.reverse) = '[' :: run ++ brLoop dw none := by
  rcases hcase with rfl | ⟨c0, t, rfl, hnw, hrq⟩
  · simp [brLoop]
  · by_cases hr : c0 = ']'
    · subst hr
      have hrun : run = [] := hrq rfl
      subst hrun
      simp only [List.reverse_nil]
      rw [brLoop_step_rbracket_nil t, brLoop_cons_ne ']' t (by decide)]
      rfl
    · by_cases hl : c0 = '['
      · subst hl
        rw [brLoop_step_some_lbracket t run.reverse, List.reverse_reverse,
          brLoop_cons_lbracket]
      · rw [brLoop_step_some_other c0 t run.reverse hnw hr hl, List.reverse_reverse,
          brLoop_cons_ne c0 t hl]

/-- The effect of a failed match attempt: the opening bracket is copied and
scanning resumes right after it. -/
theorem brLoop_nomatch (rest : List Char) (h : matchBracket rest = none) :
    brLoop ('[' :: rest) none = '[' :: brLoop rest none := by
  have hword : ∀ c ∈ rest.takeWhile isWordChar, isWordChar c = true :=
    fun c hc => List.mem_takeWhile_imp hc
  have hsplit := List.takeWhile_append_dropWhile (p := isWordChar) (l := rest)
  have hcase : rest.dropWhile isWordChar = [] ∨
      ∃ c0 t, rest.dropWhile isWordChar = c0 :: t ∧ isWordChar c0 = false ∧
        (c0 = ']' → rest.takeWhile isWordChar = []) := by
    cases hdw : rest.dropWhile isWordChar with
    | nil => exact Or.inl rfl
    | cons c0 t =>
      refine Or.inr ⟨c0, t, rfl, dropWhile_head_not_word rest c0 t hdw, ?_⟩
      intro hr
      subst hr
      by_contra htw
      unfold matchBracket at h
      rw [if_neg htw, hdw] at h
      simp at h
  calc brLoop ('[' :: rest) none
      = brLoop rest (some []) := brLoop_cons_lbracket rest
    _ = brLoop (rest.takeWhile isWordChar ++ rest.dropWhile isWordChar) (some []) := by
        rw [hsplit]
    _ = brLoop (rest.dropWhile isWordChar)
          (some ((rest.takeWhile isWordChar).reverse ++ [])) :=
        brLoop_some_word_consume _ hword _ []
    _ = brLoop (rest.dropWhile isWordChar)
          (some (rest.takeWhile isWordChar).reverse) := by
        rw [List.append_nil]
    _ = '[' :: rest.takeWhile isWordChar ++ brLoop (rest.dropWhile isWordChar) none :=
        brLoop_fail_state _ _ hcase
    _ = '[' :: brLoop (rest.takeWhile isWordChar ++ rest.dropWhile isWordChar) none := by
        rw [brLoop_none_word_append _ _ hword]
        rfl
    _ = '[' :: brLoop rest none := by rw [hsplit]

/-- The scanner's output never begins a match where the input's attempt
failed. -/
theorem matchBracket_brLoop_none (rest : List Char) (h : matchBracket rest = none) :
    matchBracket (brLoop rest none) = none := by
  have hword : ∀ c ∈ rest.takeWhile isWordChar, isWordChar c = true :=
    fun c hc => List.mem_takeWhile_imp hc
  have hsplit := List.takeWhile_append_dropWhile (p := isWordChar) (l := rest)
  by_cases htw : rest.takeWhile isWordChar = []
  · have hrest : rest = rest.dropWhile isWordChar := by
      conv_lhs => rw [← hsplit]
      rw [htw, List.nil_append]
    cases hdw : rest.dropWhile isWordChar with
    | nil =>
      rw [hrest, hdw]
      rfl
    | cons c0 t =>
      have hnw : isWordChar c0 = false := dropWhile_head_not_word rest c0 t hdw
      rw [hrest, hdw]
      by_cases hl : c0 = '['
      · subst hl
        rw [brLoop_cons_lbracket]
        obtain ⟨d, m, heq, hd⟩ := brLoop_some_head t []
        rw [heq]
        have hdf : isWordChar d = false := by
          rcases hd with rfl | rfl <;> decide
        exact matchBracket_head_not_word d m hdf
      · rw [brLoop_cons_ne c0 t hl]
        exact matchBracket_head_not_word c0 (brLoop t none) hnw
  · have key : ∀ b bs, rest.dropWhile isWordChar = b :: bs → b ≠ ']' := by
      intro b bs hdw hb
      subst hb
      unfold matchBracket at h
      rw [if_neg htw, hdw] at h
      simp at h
    conv_lhs => rw [← hsplit]
    rw [brLoop_none_word_append _ _ hword]
    unfold matchBracket
    rw [List.takeWhile_append_of_pos hword, List.dropWhile_append_of_pos hword]
    cases hdw : rest.dropWhile isWordChar with
    | nil =>
      simp [brLoop, htw]
    | cons c0 t =>
      have hnw : isWordChar c0 = false := dropWhile_head_not_word rest c0 t hdw
      have hrb : c0 ≠ ']' := key c0 t hdw
      by_cases hl : c0 = '['
      · subst hl
        rw [brLoop_cons_lbracket]
        obtain ⟨d, m, heq, hd⟩ := brLoop_some_head t []
        rw [heq]
        have hdf : isWordChar d = false := by
          rcases hd with rfl | rfl <;> decide
        have hdr : d ≠ ']' := by
          rcases hd with rfl | rfl <;> decide
        rw [List.takeWhile_cons_of_neg (by simp [hdf]),
          List.dropWhile_cons_of_neg (by simp [hdf]),
          if_neg (by simp [htw]), List.head?_cons, if_neg (by simp [hdr])]
      · rw [brLoop_cons_ne c0 t hl,
          List.takeWhile_cons_of_neg (by simp [hnw]),
          List.dropWhile_cons_of_neg (by simp [hnw]),
          if_neg (by simp [htw]), List.head?_cons, if_neg (by simp [hrb])]

/-- The rewrite pass is idempotent: a second pass over its own output
changes nothing. -/
theorem brLoop_idem (n : Nat) : ∀ l : List Char, l.length ≤ n →
    brLoop (brLoop l none) none = brLoop l none := by
  induction n with
  | zero =>
    intro l hl
    have hnil : l = [] := List.length_eq_zero.1 (Nat.le_zero.1 hl)
    subst hnil
    rfl
  | succ n ih =>
    intro l hl
    cases l with
    | nil => rfl
    | cons c rest =>
      have hrest : rest.length ≤ n := by
        simp only [List.length_cons] at hl
        omega
      by_cases hc : c = '['
      · subst hc
        cases hm : matchBracket rest with
        | some pr =>
          obtain ⟨run, rest2⟩ := pr
          obtain ⟨hne, hword, hrest_eq⟩ := matchBracket_some rest run rest2 hm
          have hlen2 : rest2.length ≤ n := by
            have : rest.length = run.length + (rest2.length + 1) := by
              rw [hrest_eq]
              simp
            omega
          rw [brLoop_match rest run rest2 hm]
          have hshape : ('.' :: run ++ brLoop rest2 none)
              = '.' :: (run ++ brLoop rest2 none) := rfl
          rw [hshape, brLoop_cons_ne '.' _ (by decide),
            brLoop_none_word_append run _ hword, ih rest2 hlen2]
        | none =>
          rw [brLoop_nomatch rest hm,
            brLoop_nomatch (brLoop rest none) (matchBracket_brLoop_none rest hm),
            ih rest hrest]
      · rw [brLoop_cons_ne c rest hc, brLoop_cons_ne c (brLoop rest none) hc,
          ih rest hrest]

/-- `bracketReplace` is idempotent: its output contains no remaining
`[run]` pattern to rewrite. -/
theorem bracketReplace_idem (l : List Char) :
    bracketReplace (bracketReplace l) = bracketReplace l :=
  brLoop_idem l.length l (Nat.le_refl _)

/-- C2: replacing every bracketed word-character index `[k]` by `.k` in a
selector does not change what any record resolves to — the resolver itself
performs exactly this rewrite first, and the rewrite is idempotent.  In
particular `a[0].b` and `a.0.b` resolve identically on every record. -/
theorem c2_bracket_normalisation :
    (∀ record : Value,
        getPossibleNestedValue record "a[0].b" = getPossibleNestedValue record "a.0.b")
  ∧ (∀ (record : Value) (s : String),
        getPossibleNestedValue record (String.mk (bracketReplace s.data))
          = getPossibleNestedValue record s) := by
  constructor
  · intro record
    rfl
  · intro record s
    unfold getPossibleNestedValue parseSelector
    rw [show (String.mk (bracketReplace s.data)).data = bracketReplace s.data from rfl,
      bracketReplace_idem]
